import Mathlib

/- Verification of the sequence-reconciliation core of PDBminer
   (program/scripts/PDBminer_functions.py), shallowly embedded in Lean.
   Python residue strings are modelled as List Char, integer position arrays as
   List Int, and the pandas DataFrames as lists of records.  Line numbers in the
   doc comments refer to PDBminer_functions.py. -/

/-- Alignment-column row: one row of the per-column DataFrame built in
    align_uniprot_pdb lines 831-834 (columns uniprot_seq, uniprot_pos, pdb_seq,
    pdb_pos). -/
structure Row where
  uniprot_seq : Char
  uniprot_pos : Int
  pdb_seq : Char
  pdb_pos : Int
deriving DecidableEq

/-- Python sorted(set(l)) (to_ranges line 494): the distinct values of l in
    ascending order. -/
def sortedDedup (l : List Int) : List Int := List.insertionSort (· ≤ ·) l.dedup

/-- Worker for to_ranges: groups a strictly increasing list into maximal runs of
    consecutive integers, emitting (first, last) of every run.  The source
    (lines 495-498) uses itertools.groupby over enumerate(iterable) keyed by
    value minus index, which on a strictly increasing list cuts exactly where an
    adjacent pair is not one apart; this recursion performs those cuts
    directly. -/
def runsAux : Int → Int → List Int → List (Int × Int)
  | start, stop, [] => [(start, stop)]
  | start, stop, v :: t =>
    if v = stop + 1 then runsAux start v t else (start, stop) :: runsAux v v t

/-- Embedding of to_ranges (lines 482-498). -/
def to_ranges (l : List Int) : List (Int × Int) :=
  match sortedDedup l with
  | [] => []
  | v :: t => runsAux v v t

/-- Ranges computed by get_coverage (lines 757-762) from the uniprot_pos column;
    the source renders them as a semicolon-joined string, the verification works
    with the (start, end) pairs it stringifies. -/
def get_coverage_ranges (df : List Row) : List (Int × Int) :=
  to_ranges (df.map (fun r => r.uniprot_pos))

/-- Loop of numerical_alignment (lines 530-535): emit 0 for each leading pad
    column and, at the first non-pad column, splice in the whole original
    position list and stop (the break). -/
def numAlignLoop (positions : List Int) : List Char → List Int
  | [] => []
  | c :: rest => if c = '-' then 0 :: numAlignLoop positions rest else positions

/-- Embedding of numerical_alignment (lines 527-540): the loop result is padded
    with zeros on the right up to the length of the aligned sequence when it is
    shorter. -/
def numerical_alignment (aligned : List Char) (positions : List Int) : List Int :=
  let pl := numAlignLoop positions aligned
  if aligned.length > pl.length then pl ++ List.replicate (aligned.length - pl.length) 0
  else pl

/-- Model of the Python expression list(set(l)) at get_mutations line 692: an
    enumeration of the distinct values of l.  CPython iterates a set of small
    non-negative integers (all below the hash-table size, so each sits in the
    slot of its own value) in ascending value order, which this model
    reproduces; the claims use only the distinctness and membership of the
    enumeration except on such small inputs. -/
def pySetList (l : List Int) : List Int := List.insertionSort (· ≤ ·) l.dedup

/-- The not-in-range verdict string of get_mutations (line 698). -/
def notInRangeMsg (p : Int) : String :=
  "Mutation on position " ++ toString p ++ " not in range"

/-- The resolved verdict string of get_mutations (line 695): reference residue,
    position, structure residue of the first matching row. -/
def resolvedMsg (u : Char) (p : Int) (s : Char) : String :=
  toString u ++ toString p ++ toString s

/-- Verdict of get_mutations for one queried position (lines 693-698): the
    membership test on the uniprot_pos column and, on success, the first row of
    the filtered frame, are together the first row whose position matches. -/
def mutVerdict (df : List Row) (p : Int) : String :=
  match df.find? (fun r => r.uniprot_pos = p) with
  | some r => resolvedMsg r.uniprot_seq p r.pdb_seq
  | none => notInRangeMsg p

/-- Embedding of get_mutations (lines 689-699). -/
def get_mutations (mut_pos : List Int) (df : List Row) : List String :=
  (pySetList mut_pos).map (mutVerdict df)

/-- Hotspot positions of get_all_discrepancies (lines 710-712): the uniprot
    positions of the rows whose two residues differ, in table order. -/
def hotspots (df : List Row) : List Int :=
  (df.filter (fun r => r.uniprot_seq ≠ r.pdb_seq)).map (fun r => r.uniprot_pos)

/-- First value of the uniprot_pos column (line 715).  The source indexes [0]
    and would raise on an empty table, unreachable in the pipeline. -/
def seqStart (df : List Row) : Int := (df.map (fun r => r.uniprot_pos)).headD 0

/-- Last value of the uniprot_pos column (line 716). -/
def seqEnd (df : List Row) : Int := (df.map (fun r => r.uniprot_pos)).getLastD 0

/-- Worker for splitRuns on a non-empty list whose head is x: cut after every
    adjacent pair whose difference is not the step. -/
def splitRunsCore (step : Int) (x : Int) : List Int → List (List Int)
  | [] => [[x]]
  | y :: t =>
    if y - x = step then
      match splitRunsCore step y t with
      | [] => [[x]]
      | c :: cs => (x :: c) :: cs
    else [x] :: splitRunsCore step y t

/-- Embedding of np.split(arr, np.where(np.diff(arr) != step)[0] + 1) as used on
    lines 724 and 734: the maximal chunks of adjacent values advancing by the
    step; numpy yields one empty chunk for an empty array. -/
def splitRuns (step : Int) : List Int → List (List Int)
  | [] => [[]]
  | x :: t => splitRunsCore step x t

/-- Warning text recorded for a removed N-terminal attachment of the given
    length (lines 729 and 740). -/
def nWarn (l : Nat) : String :=
  "attachment at N-terminal with length " ++ toString l ++
    " have been removed from coverage"

/-- Warning text recorded for a removed C-terminal attachment (line 744). -/
def cWarn (l : Nat) : String :=
  "attachment at C-terminal with length " ++ toString l ++
    " have been removed from coverage"

/-- Step-0 branch of get_all_discrepancies (lines 723-729): when the first chunk
    of the hotspot list split at unequal adjacent values contains the value 0,
    the value 0 is marked for removal. -/
def zeroRemoval (hs : List Int) : List Int :=
  if 0 ∈ (splitRuns 0 hs).headD [] then [0] else []

/-- Warning of the step-0 branch (line 729), carrying the length of the first
    chunk. -/
def zeroWarnings (hs : List Int) : List String :=
  if 0 ∈ (splitRuns 0 hs).headD [] then [nWarn ((splitRuns 0 hs).headD []).length]
  else []

/-- Values collected for removal by the step-1 loop (lines 734-744): every chunk
    of consecutive hotspot positions of length greater than 2 that contains the
    first or the last table position; a chunk containing both is inserted twice,
    as np.insert is called once per branch.  The source prepends into
    removal_values; the array is consumed only through isin, so only membership
    matters and the chunks are appended here. -/
def bigRunRemoval (start stop : Int) (runs : List (List Int)) : List Int :=
  runs.foldl (fun acc r =>
    acc ++ (if 2 < r.length ∧ start ∈ r then r else [])
        ++ (if 2 < r.length ∧ stop ∈ r then r else [])) []

/-- Warnings recorded by the step-1 loop (lines 740 and 744), in loop order. -/
def bigRunWarnings (start stop : Int) (runs : List (List Int)) : List String :=
  runs.foldl (fun acc r =>
    acc ++ (if 2 < r.length ∧ start ∈ r then [nWarn r.length] else [])
        ++ (if 2 < r.length ∧ stop ∈ r then [cWarn r.length] else [])) []

/-- All position values removed from the table by get_all_discrepancies. -/
def removal_values (df : List Row) : List Int :=
  zeroRemoval (hotspots df) ++
    bigRunRemoval (seqStart df) (seqEnd df) (splitRuns 1 (hotspots df))

/-- All warnings recorded by get_all_discrepancies; the step-0 warning precedes
    the loop warnings, as in the source. -/
def discWarnings (df : List Row) : List String :=
  zeroWarnings (hotspots df) ++
    bigRunWarnings (seqStart df) (seqEnd df) (splitRuns 1 (hotspots df))

/-- The table after artifact trimming (line 747): the rows whose uniprot
    position is in removal_values are dropped. -/
def trimmedTable (df : List Row) : List Row :=
  df.filter (fun r => r.uniprot_pos ∉ removal_values df)

/-- Discrepancy strings recomputed on the trimmed table (lines 751-753). -/
def mutations_in_all (df : List Row) : List String :=
  ((trimmedTable df).filter (fun r => r.uniprot_seq ≠ r.pdb_seq)).map
    (fun r => resolvedMsg r.uniprot_seq r.uniprot_pos r.pdb_seq)

/-- Embedding of get_all_discrepancies (lines 701-755): trimmed table,
    discrepancy strings, warnings. -/
def get_all_discrepancies (df : List Row) : List Row × List String × List String :=
  (trimmedTable df, mutations_in_all df, discWarnings df)

/-- Keep-first deduplication of rows: the behaviour of drop_duplicates with
    keep first on the two-column frame of lines 629-630.  A row is dropped
    exactly when an identical (position, residue) row appeared before it. -/
def dedupFirstAux {α : Type} [DecidableEq α] (seen : List α) : List α → List α
  | [] => []
  | a :: t => if a ∈ seen then dedupFirstAux seen t else a :: dedupFirstAux (a :: seen) t

/-- drop_duplicates(keep first) over a whole list. -/
def dedupKeepFirst {α : Type} [DecidableEq α] (l : List α) : List α := dedupFirstAux [] l

/-- Python range(a, b+1) as a list of integers (line 639). -/
def rangeList (a b : Int) : List Int :=
  (List.range (b + 1 - a).toNat).map (fun i => a + (i : Int))

/-- Python min of a list, seeded with the head for non-empty lists. -/
def listMin (l : List Int) : Int := l.foldl min (l.headD 0)

/-- Python max of a list, seeded with the head for non-empty lists. -/
def listMax (l : List Int) : Int := l.foldl max (l.headD 0)

/-- One iteration of the gap-filling loop of get_AA_pos (lines 652-655) at
    index i, on the zipped (residue, position) rows: when the position at i+1 is
    not the successor of the position at i, a gap-marker row with the successor
    position is inserted at index i+1 of both parallel lists. -/
def gfStep (st : List (Char × Int)) (i : Nat) : List (Char × Int) :=
  if (st.getD i ('-', 0)).2 + 1 ≠ (st.getD (i + 1) ('-', 0)).2 then
    st.insertIdx (i + 1) ('-', (st.getD i ('-', 0)).2 + 1)
  else st

/-- The gap-filling loop of get_AA_pos (lines 652-655): for i in
    range(len(pos_pdb)-1), the iteration count being fixed at the length the
    list had before the loop, even though insertions grow the list while it
    runs. -/
def gapFillLoop (rows : List (Char × Int)) : List (Char × Int) :=
  (List.range (rows.length - 1)).foldl gfStep rows

/-- Embedding of the post-extraction body of get_AA_pos (lines 603-656), taking
    the parallel residue and position lists produced by the chain walk and
    returning what the function returns.  The always index-aligned parallel
    lists are modelled zipped into rows; the source itself zips them into a
    two-column DataFrame for the deduplication.  In order: the single-distinct-
    residue guard (604), stripping leading and trailing X runs (606-618),
    mapping X to the gap marker (620), the short-gapped-fragment guard
    (622-627), keep-first row deduplication (629-632), the already-contiguous
    check (639-640), the duplicate-position guard (643-649) and the gap-filling
    loop (651-656).  An empty chain is unreachable (the source would raise). -/
def AA_pos_process (AA0 : List Char) (pos0 : List Int) : List Char × List Int :=
  if AA0.dedup.length ≠ 1 then
    let r2 := (AA0.zip pos0).dropWhile (fun r => r.1 = 'X')
    let r3 := (r2.reverse.dropWhile (fun r => r.1 = 'X')).reverse
    let r4 := r3.map (fun r => (if r.1 = 'X' then '-' else r.1, r.2))
    if r4.any (fun r => r.1 = '-') ∧ r4.length < 5 then ([], [])
    else
      let r5 := dedupKeepFirst r4
      let pos := r5.map (fun r => r.2)
      if List.insertionSort (· ≤ ·) pos = rangeList (listMin pos) (listMax pos) then
        (r5.map (fun r => r.1), pos)
      else if pos.dedup.length ≠ pos.length then ([], [])
      else
        let filled := gapFillLoop r5
        (filled.map (fun r => r.1), filled.map (fun r => r.2))
  else ([], [])

/-- Three consecutive histidines at the head of the letter list (line 671). -/
def startsHHH : List Char → Bool
  | 'H' :: 'H' :: 'H' :: _ => true
  | _ => false

/-- Occurrence of HHH anywhere in the concatenated missing-residue letters
    (lines 670-674), signalling an expression tag. -/
def containsHHH : List Char → Bool
  | [] => false
  | c :: t => startsHHH (c :: t) || containsHHH t

/-- First pass of remove_missing_residues (lines 677-680): for every reported
    missing position present in the position list, the residue at the first
    index of that position is forced to the gap marker. -/
def missingPass (pos_pdb : List Int) (AA : List Char) (missing_pos : List Int) :
    List Char :=
  missing_pos.foldl (fun acc p =>
    if p ∈ pos_pdb then acc.set (List.indexOf p pos_pdb) '-' else acc) AA

/-- Second pass of remove_missing_residues (lines 683-685): the Python loop
    walks the indices of the mutating list and, at every index still holding the
    marker X, overwrites the first X of the current list with the gap marker. -/
def xPass (AA : List Char) : List Char :=
  (List.range AA.length).foldl (fun acc i =>
    if acc.getD i ' ' = 'X' then acc.set (List.indexOf 'X' acc) '-' else acc) AA

/-- Embedding of remove_missing_residues (lines 658-687) for one chain; missing
    holds the (residue letter, reported position) header records of this chain.
    The source guards the first pass with missing_AA being non-empty, which the
    fold subsumes (a fold over no records changes nothing). -/
def remove_missing_residues (missing : List (Char × Int)) (pos_pdb : List Int)
    (AA_pdb : List Char) : List Char × String :=
  let warning := if containsHHH (missing.map (fun m => m.1)) then
      "The structure likely contains an expression tag"
    else ""
  (xPass (missingPass pos_pdb AA_pdb (missing.map (fun m => m.2))), warning)

/-- One row of the intermediate quality DataFrame of align_alphafold
    (lines 907-918). -/
structure AFRow where
  position : Int
  sequence : Char
  pddlt : Int
  category : String
deriving DecidableEq

/-- The quality DataFrame of align_alphafold (lines 906-918) built from the CA
    atoms, each given as (residue letter, b-factor confidence score): positions
    1..n and category high exactly when the score strictly exceeds 70.  Scores
    are modelled as integers; the source only ever compares them with 70. -/
def afDf (atoms : List (Char × Int)) : List AFRow :=
  (List.range atoms.length).map (fun (i : Nat) =>
    { position := (i : Int) + 1
      sequence := (atoms.getD i (' ', 0)).1
      pddlt := (atoms.getD i (' ', 0)).2
      category := if 70 < (atoms.getD i (' ', 0)).2 then "high" else "low" })

/-- A queried mutation position handed to align_alphafold: either the string NA
    or an integer position (the source list mixes both). -/
inductive AFQuery where
  | na : AFQuery
  | val : Int → AFQuery
deriving DecidableEq

/-- Verdict of align_alphafold for one query (lines 942-951).  The source tests
    the numpy truthiness of the values of the category column filtered to the
    queried position compared with the string high, which holds exactly when the
    filtered column is the one-element high list; the echoed residue is the
    first value of the filtered sequence column. -/
def afVerdict (atoms : List (Char × Int)) (q : AFQuery) : String :=
  match q with
  | .na => "NA"
  | .val p =>
    if ((afDf atoms).filter (fun r => r.position = p)).map (fun r => r.category)
        = [("high" : String)] then
      resolvedMsg ((((afDf atoms).filter (fun r => r.position = p)).map
          (fun r => r.sequence)).headD ' ') p
        ((((afDf atoms).filter (fun r => r.position = p)).map
          (fun r => r.sequence)).headD ' ')
    else "Mutation not in range"

/-- The mutation column of align_alphafold (lines 919-957): when at least one
    residue is high-confidence the per-query verdicts are joined by commas,
    otherwise the column is the string NA.  The coverage string of the same
    branch is not modelled. -/
def align_alphafold_AA (atoms : List (Char × Int)) (queries : List AFQuery) :
    String :=
  if 0 < ((afDf atoms).filter (fun r => r.category = ("high" : String))).length then
    String.intercalate (",") (queries.map (afVerdict atoms))
  else "NA"

/-- Control-flow skeleton of the per-chain loop of align_uniprot_pdb
    (lines 811-863), with the per-chain computations supplied as oracles:
    extract is get_AA_pos for the chain (empty lists on failure), fixup is the
    conditional remove_missing_residues step on the residue list, and alignRes
    is the local alignment (empty sequences on failure, line 826).  The source
    appends the chain identifier and its per-chain columns exactly when the
    aligned uniprot sequence is non-empty, and on an empty extraction
    immediately returns the five-field empty sentinel array for the whole
    structure (lines 815-818), modelled as none; some cs is the chain-identifier
    accumulator of a completed loop. -/
def alignChainLoop (extract : String → List Char × List Int)
    (fixup : String → List Char → List Char)
    (alignRes : List Char → List Char × List Char) :
    List String → List String → Option (List String)
  | acc, [] => some acc
  | acc, c :: rest =>
    if (extract c).1 = [] then none
    else if (alignRes (fixup c (extract c).1)).1 ≠ [] then
      alignChainLoop extract fixup alignRes (acc ++ [c]) rest
    else alignChainLoop extract fixup alignRes acc rest

/-- Example extraction oracle: chain A yields the empty extraction, any other
    chain one methionine at position 5. -/
def exExtract : String → List Char × List Int :=
  fun c => if c = ("A" : String) then ([], []) else (['M'], [5])

/-- Example fixup oracle: the identity (a structure without missing-residue
    records). -/
def exFixup : String → List Char → List Char := fun _ l => l

/-- Example alignment oracle: every non-empty sequence aligns to itself. -/
def exAlignRes : List Char → List Char × List Char := fun l => (l, l)

/-- Example table: a three-residue N-terminal attachment (H H H against the
    reference M K T) followed by two matching residues. -/
def exTable1 : List Row :=
  [⟨'M', 1, 'H', 1⟩, ⟨'K', 2, 'H', 2⟩, ⟨'T', 3, 'H', 3⟩,
   ⟨'A', 4, 'A', 4⟩, ⟨'Y', 5, 'Y', 5⟩]

/-- Example table: a single structure residue before the reference start (the
    zero-position sentinel row) followed by two matching residues. -/
def exTable0 : List Row :=
  [⟨'-', 0, 'H', 1⟩, ⟨'M', 1, 'M', 2⟩, ⟨'K', 2, 'K', 3⟩]

/- ------------------------------------------------------------------ -/
/- Helper lemmas                                                      -/
/- ------------------------------------------------------------------ -/

theorem charToString_length (c : Char) : (toString c).length = 1 := rfl

theorem notInRange_lit1_length : ("Mutation on position " : String).length = 21 := rfl

theorem notInRange_lit2_length : (" not in range" : String).length = 13 := rfl

theorem resolvedMsg_ne_notInRangeMsg (u s : Char) (p : Int) :
    resolvedMsg u p s ≠ notInRangeMsg p := by
  intro h
  have h2 := congrArg String.length h
  simp only [resolvedMsg, notInRangeMsg, String.length_append, charToString_length,
    notInRange_lit1_length, notInRange_lit2_length] at h2
  omega

theorem dedupFirstAux_congr {α : Type} [DecidableEq α] (l : List α) :
    ∀ s₁ s₂ : List α, (∀ x, x ∈ s₁ ↔ x ∈ s₂) →
      dedupFirstAux s₁ l = dedupFirstAux s₂ l := by
  induction l with
  | nil => intro s₁ s₂ _; rfl
  | cons a t ih =>
    intro s₁ s₂ h
    by_cases ha : a ∈ s₁
    · simp [dedupFirstAux, ha, (h a).mp ha, ih s₁ s₂ h]
    · have ha2 : a ∉ s₂ := fun hx => ha ((h a).mpr hx)
      simp only [dedupFirstAux, if_neg ha, if_neg ha2]
      refine congrArg (a :: ·) (ih _ _ ?_)
      intro x; simp [h x]

theorem dedupFirstAux_insert {α : Type} [DecidableEq α] (l : List α) :
    ∀ (a : α) (seen : List α),
      dedupFirstAux (a :: seen) l = dedupFirstAux seen (l.filter (fun b => b ≠ a)) := by
  induction l with
  | nil => intro a seen; rfl
  | cons b t ih =>
    intro a seen
    by_cases hba : b = a
    · subst hba
      simp [dedupFirstAux, List.filter_cons, ih]
    · by_cases hbs : b ∈ seen
      · have : b ∈ a :: seen := List.mem_cons_of_mem _ hbs
        simp [dedupFirstAux, List.filter_cons, hba, this, hbs, ih]
      · have hb : b ∉ a :: seen := by
          intro hx
          rcases List.mem_cons.mp hx with h1 | h1
          · exact hba h1
          · exact hbs h1
        simp only [dedupFirstAux, if_neg hb, List.filter_cons]
        have hcond : (decide (b ≠ a)) = true := by simp [hba]
        rw [hcond]
        simp only [dedupFirstAux, if_neg hbs]
        refine congrArg (b :: ·) ?_
        rw [dedupFirstAux_congr t (b :: a :: seen) (a :: b :: seen) (by intro x; constructor <;>
          (intro hx; rcases List.mem_cons.mp hx with h1 | h1;
           · simp [h1]
           · rcases List.mem_cons.mp h1 with h2 | h2 <;> simp [h2]))]
        exact ih a (b :: seen)

theorem mem_dedupFirstAux {α : Type} [DecidableEq α] (l : List α) :
    ∀ (seen : List α) (x : α), x ∈ dedupFirstAux seen l ↔ x ∈ l ∧ x ∉ seen := by
  induction l with
  | nil => intro seen x; simp [dedupFirstAux]
  | cons a t ih =>
    intro seen x
    by_cases ha : a ∈ seen
    · rw [dedupFirstAux, if_pos ha, ih]
      constructor
      · rintro ⟨h1, h2⟩; exact ⟨List.mem_cons_of_mem _ h1, h2⟩
      · rintro ⟨h1, h2⟩
        rcases List.mem_cons.mp h1 with h3 | h3
        · exact absurd ha (h3 ▸ h2)
        · exact ⟨h3, h2⟩
    · rw [dedupFirstAux, if_neg ha]
      constructor
      · intro hx
        rcases List.mem_cons.mp hx with h1 | h1
        · exact ⟨by simp [h1], h1 ▸ ha⟩
        · obtain ⟨h2, h3⟩ := (ih _ _).mp h1
          refine ⟨List.mem_cons_of_mem _ h2, fun hx2 => h3 (List.mem_cons_of_mem _ hx2)⟩
      · rintro ⟨h1, h2⟩
        rcases List.mem_cons.mp h1 with h3 | h3
        · exact h3 ▸ List.mem_cons_self _ _
        · by_cases hxa : x = a
          · exact hxa ▸ List.mem_cons_self _ _
          · refine List.mem_cons_of_mem _ ((ih _ _).mpr ⟨h3, ?_⟩)
            intro hx2
            rcases List.mem_cons.mp hx2 with h4 | h4
            · exact hxa h4
            · exact h2 h4

theorem dedupFirstAux_nodup {α : Type} [DecidableEq α] (l : List α) :
    ∀ seen : List α, (dedupFirstAux seen l).Nodup := by
  induction l with
  | nil => intro seen; simp [dedupFirstAux]
  | cons a t ih =>
    intro seen
    by_cases ha : a ∈ seen
    · rw [dedupFirstAux, if_pos ha]; exact ih seen
    · rw [dedupFirstAux, if_neg ha]
      refine List.nodup_cons.mpr ⟨?_, ih _⟩
      intro hx
      exact ((mem_dedupFirstAux t _ a).mp hx).2 (List.mem_cons_self _ _)

theorem dedupFirstAux_sublist {α : Type} [DecidableEq α] (l : List α) :
    ∀ seen : List α, (dedupFirstAux seen l).Sublist l := by
  induction l with
  | nil => intro seen; simp [dedupFirstAux]
  | cons a t ih =>
    intro seen
    by_cases ha : a ∈ seen
    · rw [dedupFirstAux, if_pos ha]; exact (ih seen).cons a
    · rw [dedupFirstAux, if_neg ha]; exact (ih _).cons₂ a

/- ------------------------------------------------------------------ -/
/- Claim C1                                                           -/
/- ------------------------------------------------------------------ -/

/-- Claim C1: the gap-filling branch of get_AA_pos is claimed to return
    positions spanning the contiguous run from min to max.  Evaluating the
    embedded code on the duplicate-free, non-contiguous chain with residues A at
    10 and C at 13 shows that only one gap row is inserted: the loop bound
    len(pos_pdb)-1 is fixed before insertions grow the list, so position 12 is
    never examined and the returned series [10,11,13] is not contiguous. -/
theorem claim_C1_gap_left_unfilled :
    AA_pos_process ['A','C'] [10,13] = (['A','-','C'], [10,11,13]) ∧
    (AA_pos_process ['A','C'] [10,13]).2 ≠ rangeList (listMin [10,13]) (listMax [10,13]) := by
  exact ⟨by decide, by decide⟩

/- ------------------------------------------------------------------ -/
/- Claim C5                                                           -/
/- ------------------------------------------------------------------ -/

/-- Claim C5, counterexample: the deduplication step of get_AA_pos keeps both
    a first row (A, 1) and a later row (C, 1) that carries the same position
    with a different residue, so more than one row per position can survive it;
    the whole chain is then discarded by the duplicate-position guard, whereas
    position-keyed first-occurrence deduplication would have kept the chain. -/
theorem claim_C5_cex :
    dedupKeepFirst [('A', (1 : Int)), ('C', 1)] = [('A', 1), ('C', 1)] ∧
    ((dedupKeepFirst [('A', (1 : Int)), ('C', 1)]).filter (fun r => r.2 = 1)).length = 2 ∧
    AA_pos_process ['A','C'] [1,1] = ([], []) := by
  exact ⟨by decide, by decide, by decide⟩

/-- Claim C5 (amended): the deduplication of get_AA_pos acts on whole
    (residue, position) rows, keeping the first occurrence of each distinct row:
    the result is duplicate-free as a row list, is a subsequence of the input,
    keeps exactly the rows that occur in the input, and satisfies the
    keep-first recurrence; rows sharing a position but differing in residue all
    survive (and later make the chain be discarded as ambiguous numbering). -/
theorem claim_C5_dedup_rows (l : List (Char × Int)) (a : Char × Int)
    (t : List (Char × Int)) :
    (dedupKeepFirst l).Nodup ∧ (dedupKeepFirst l).Sublist l ∧
    (∀ x, x ∈ dedupKeepFirst l ↔ x ∈ l) ∧
    dedupKeepFirst (a :: t) = a :: dedupKeepFirst (t.filter (fun b => b ≠ a)) := by
  refine ⟨dedupFirstAux_nodup l [], dedupFirstAux_sublist l [], ?_, ?_⟩
  · intro x
    rw [dedupKeepFirst, mem_dedupFirstAux]
    simp
  · show dedupFirstAux [] (a :: t) = _
    rw [dedupFirstAux, if_neg (List.not_mem_nil a)]
    rw [dedupFirstAux_insert t a []]
    rfl

/- ------------------------------------------------------------------ -/
/- Claim C4                                                           -/
/- ------------------------------------------------------------------ -/

/-- Claim C4, counterexample: queried positions [5, 3] against the example
    table.  The code iterates list(set(mut_pos)), which for these values is
    [3, 5], so the verdict of position 3 is emitted first even though position 5
    occurs first in the input; the two verdicts differ, hence the output is not
    in de-duplicated input order. -/
theorem claim_C4_cex :
    get_mutations [5,3] exTable1 = [mutVerdict exTable1 3, mutVerdict exTable1 5] ∧
    mutVerdict exTable1 3 ≠ mutVerdict exTable1 5 ∧
    List.indexOf (5 : Int) [5,3] < List.indexOf (3 : Int) [5,3] := by
  exact ⟨by decide, by decide, by decide⟩

/-- Claim C4 (amended): get_mutations emits one verdict per distinct queried
    position, but in the iteration order of the Python set of the positions —
    for small non-negative integers that is ascending by value — not in
    first-occurrence input order. -/
theorem claim_C4_set_order (mut_pos : List Int) (df : List Row) :
    get_mutations mut_pos df = (pySetList mut_pos).map (mutVerdict df) ∧
    List.Sorted (· ≤ ·) (pySetList mut_pos) ∧ (pySetList mut_pos).Nodup ∧
    (∀ p, p ∈ pySetList mut_pos ↔ p ∈ mut_pos) := by
  refine ⟨rfl, List.sorted_insertionSort _ _, ?_, ?_⟩
  · exact ((List.perm_insertionSort _ _).nodup_iff).mpr (List.nodup_dedup mut_pos)
  · intro p
    rw [pySetList, (List.perm_insertionSort _ _).mem_iff, List.mem_dedup]

theorem set_gap_getD (l : List Char) (j i : Nat) :
    (l.set j '-').getD i ' ' = l.getD i ' ' ∨ (l.set j '-').getD i ' ' = '-' := by
  rw [List.getD_eq_getElem?_getD, List.getD_eq_getElem?_getD, List.getElem?_set]
  by_cases h : j = i
  · subst h
    by_cases h2 : j < l.length
    · right; simp [h2]
    · left
      rw [if_neg h2, List.getElem?_eq_none (by omega)]
      simp
  · simp [h]

theorem fold_set_gap {β : Type} (g : List Char → β → List Char)
    (hg : ∀ acc b, g acc b = acc ∨ ∃ j, g acc b = acc.set j '-') (bs : List β) :
    ∀ acc : List Char,
      (bs.foldl g acc).length = acc.length ∧
      ∀ i, (bs.foldl g acc).getD i ' ' = acc.getD i ' ' ∨
           (bs.foldl g acc).getD i ' ' = '-' := by
  induction bs with
  | nil => intro acc; exact ⟨rfl, fun i => Or.inl rfl⟩
  | cons b bs ih =>
    intro acc
    rw [List.foldl_cons]
    rcases hg acc b with hid | ⟨j, hset⟩
    · rw [hid]; exact ih acc
    · rw [hset]
      obtain ⟨ihlen, ihptw⟩ := ih (acc.set j '-')
      refine ⟨by rw [ihlen, List.length_set], fun i => ?_⟩
      rcases ihptw i with h1 | h1
      · rcases set_gap_getD acc j i with h2 | h2
        · exact Or.inl (h1.trans h2)
        · exact Or.inr (h1.trans h2)
      · exact Or.inr h1

/- ------------------------------------------------------------------ -/
/- Claim C10                                                          -/
/- ------------------------------------------------------------------ -/

/-- Claim C10: remove_missing_residues returns a residue list of the same length
    as its input in which every entry either equals the corresponding input
    entry or is the gap marker; both of its passes only ever overwrite single
    entries with the gap marker.  The position list is only read (the source
    never assigns into pos_pdb), so it is unchanged. -/
theorem claim_C10_missing_residue_frame (missing : List (Char × Int))
    (pos_pdb : List Int) (AA_pdb : List Char) :
    ((remove_missing_residues missing pos_pdb AA_pdb).1).length = AA_pdb.length ∧
    ∀ i, ((remove_missing_residues missing pos_pdb AA_pdb).1).getD i ' ' = AA_pdb.getD i ' ' ∨
         ((remove_missing_residues missing pos_pdb AA_pdb).1).getD i ' ' = '-' := by
  have hmiss := fold_set_gap
    (fun acc p => if p ∈ pos_pdb then acc.set (List.indexOf p pos_pdb) '-' else acc)
    (fun acc p => by
      by_cases h : p ∈ pos_pdb
      · exact Or.inr ⟨List.indexOf p pos_pdb, by simp [h]⟩
      · exact Or.inl (by simp [h]))
    (missing.map (fun m => m.2)) AA_pdb
  set mid := missingPass pos_pdb AA_pdb (missing.map (fun m => m.2)) with hmid
  have hx := fold_set_gap
    (fun acc i => if acc.getD i ' ' = 'X' then acc.set (List.indexOf 'X' acc) '-' else acc)
    (fun acc i => by
      by_cases h : acc.getD i ' ' = 'X'
      · refine Or.inr ⟨List.indexOf 'X' acc, ?_⟩
        show (if acc.getD i ' ' = 'X' then acc.set (List.indexOf 'X' acc) '-' else acc) = _
        rw [if_pos h]
      · refine Or.inl ?_
        show (if acc.getD i ' ' = 'X' then acc.set (List.indexOf 'X' acc) '-' else acc) = _
        rw [if_neg h])
    (List.range mid.length) mid
  have hout : (remove_missing_residues missing pos_pdb AA_pdb).1 = xPass mid := rfl
  rw [hout]
  have hmlen : mid.length = AA_pdb.length := hmiss.1
  refine ⟨by rw [show (xPass mid).length = mid.length from hx.1, hmlen], fun i => ?_⟩
  have h1 : (xPass mid).getD i ' ' = mid.getD i ' ' ∨ (xPass mid).getD i ' ' = '-' := hx.2 i
  rcases h1 with h1 | h1
  · rcases hmiss.2 i with h2 | h2
    · exact Or.inl (h1.trans h2)
    · exact Or.inr (h1.trans h2)
  · exact Or.inr h1

/- ------------------------------------------------------------------ -/
/- Claim C2                                                           -/
/- ------------------------------------------------------------------ -/

/-- Claim C2, counterexample: with two chains A and B where the extraction of A
    fails (empty residue list) and B would extract and align fine, the loop
    returns the whole-structure sentinel (none, the five empty strings of the
    source) and B contributes nothing, although B alone yields a result; an
    extraction failure therefore aborts the whole structure, not only the one
    chain. -/
theorem claim_C2_cex :
    alignChainLoop exExtract exFixup exAlignRes [] [("A" : String), "B"] = none ∧
    alignChainLoop exExtract exFixup exAlignRes [] [("B" : String)] = some ["B"] := by
  exact ⟨by decide, by decide⟩

/-- Claim C2 (amended): in the per-chain loop of align_uniprot_pdb, a failed
    alignment terminates only that chain (it is skipped and the remaining chains
    still contribute): when every chain extracts non-empty residues, the loop
    completes and the contributing chains are exactly those whose alignment is
    non-empty, in order.  A failed (empty) extraction, however, aborts the whole
    structure: as soon as a chain with empty extraction is reached, the loop
    returns the empty sentinel for all chains. -/
theorem claim_C2_chain_loop (extract : String → List Char × List Int)
    (fixup : String → List Char → List Char)
    (alignRes : List Char → List Char × List Char)
    (acc chains : List String) :
    ((∀ c ∈ chains, (extract c).1 ≠ []) →
      alignChainLoop extract fixup alignRes acc chains =
        some (acc ++ chains.filter (fun c => (alignRes (fixup c (extract c).1)).1 ≠ []))) ∧
    (∀ pre c post, chains = pre ++ c :: post → (∀ b ∈ pre, (extract b).1 ≠ []) →
      (extract c).1 = [] →
      alignChainLoop extract fixup alignRes acc chains = none) := by
  constructor
  · intro h
    induction chains generalizing acc with
    | nil => simp [alignChainLoop]
    | cons c rest ih =>
      have hc : (extract c).1 ≠ [] := h c (List.mem_cons_self _ _)
      rw [alignChainLoop, if_neg hc]
      by_cases ha : (alignRes (fixup c (extract c).1)).1 ≠ []
      · rw [if_pos ha, ih (acc ++ [c]) (fun b hb => h b (List.mem_cons_of_mem _ hb)),
          List.filter_cons_of_pos (by simpa using ha), List.append_assoc]
        rfl
      · rw [if_neg ha, ih acc (fun b hb => h b (List.mem_cons_of_mem _ hb)),
          List.filter_cons_of_neg (by simpa using ha)]
  · intro pre c post hchains hpre hc
    subst hchains
    induction pre generalizing acc with
    | nil => rw [List.nil_append, alignChainLoop, if_pos hc]
    | cons b pre ih =>
      have hb : (extract b).1 ≠ [] := hpre b (List.mem_cons_self _ _)
      rw [List.cons_append, alignChainLoop, if_neg hb]
      by_cases hal : (alignRes (fixup b (extract b).1)).1 ≠ []
      · rw [if_pos hal]
        exact ih (acc ++ [b]) (fun x hx => hpre x (List.mem_cons_of_mem _ hx))
      · rw [if_neg hal]
        exact ih acc (fun x hx => hpre x (List.mem_cons_of_mem _ hx))

/-- Claim C2, witness: both parts of the loop characterization evaluated on
    concrete oracles and chains. -/
theorem claim_C2_chain_loop_w :
    (alignChainLoop exExtract exFixup exAlignRes [] [("B" : String)] =
      some (([] : List String) ++ [("B" : String)].filter
        (fun c => (exAlignRes (exFixup c (exExtract c).1)).1 ≠ []))) ∧
    alignChainLoop exExtract exFixup exAlignRes [] [("A" : String), "B"] = none :=
  ⟨(claim_C2_chain_loop exExtract exFixup exAlignRes [] ["B"]).1 (by decide),
   (claim_C2_chain_loop exExtract exFixup exAlignRes [] ["A", "B"]).2
     [] "A" ["B"] rfl (by decide) (by decide)⟩

/- ------------------------------------------------------------------ -/
/- Claim C3                                                           -/
/- ------------------------------------------------------------------ -/

/-- Claim C3, counterexample: in align_uniprot_pdb the Mutation Resolver runs on
    the table before terminal-attachment removal (line 839 precedes line 845).
    On the example table the queried position 2 sits inside the three-row
    N-terminal attachment: the code emits the resolved verdict K2H, although
    position 2 is absent from the trimmed table, where the claim requires the
    not-in-range verdict. -/
theorem claim_C3_cex :
    get_mutations [2] exTable1 = [resolvedMsg 'K' 2 'H'] ∧
    resolvedMsg 'K' 2 'H' ≠ notInRangeMsg 2 ∧
    (2 : Int) ∉ (trimmedTable exTable1).map (fun r => r.uniprot_pos) := by
  exact ⟨by decide, by decide, by decide⟩

/-- Claim C3 (amended): for every queried-position list and every
    alignment-column table, get_mutations emits exactly one verdict per distinct
    queried position, and the verdict is the not-in-range string if and only if
    the position is absent from the table get_mutations is given — which in
    align_uniprot_pdb is the gap-filtered table before terminal-attachment
    removal, since get_mutations is called before get_all_discrepancies. -/
theorem claim_C3_mutation_totality (mut_pos : List Int) (df : List Row) :
    (get_mutations mut_pos df).length = (pySetList mut_pos).length ∧
    (pySetList mut_pos).Nodup ∧
    (∀ p, p ∈ pySetList mut_pos ↔ p ∈ mut_pos) ∧
    ∀ p, p ∈ pySetList mut_pos →
      (mutVerdict df p = notInRangeMsg p ↔ p ∉ df.map (fun r => r.uniprot_pos)) := by
  refine ⟨List.length_map _ _, ?_, ?_, ?_⟩
  · exact ((List.perm_insertionSort _ _).nodup_iff).mpr (List.nodup_dedup mut_pos)
  · intro p
    rw [pySetList, (List.perm_insertionSort _ _).mem_iff, List.mem_dedup]
  · intro p _
    cases hf : df.find? (fun r => r.uniprot_pos = p) with
    | none =>
      have hnone := List.find?_eq_none.mp hf
      have hv : mutVerdict df p = notInRangeMsg p := by rw [mutVerdict, hf]
      refine iff_of_true hv ?_
      intro hp
      obtain ⟨r, hr, hrp⟩ := List.mem_map.mp hp
      have hne : ¬r.uniprot_pos = p := by simpa using hnone r hr
      exact hne hrp
    | some r =>
      have hpred : r.uniprot_pos = p := by simpa using List.find?_some hf
      have hmem : r ∈ df := List.mem_of_find?_eq_some hf
      refine iff_of_false ?_ (fun hcon => hcon (List.mem_map.mpr ⟨r, hmem, hpred⟩))
      rw [mutVerdict, hf]
      exact resolvedMsg_ne_notInRangeMsg _ _ _

/-- Claim C3, witness: the totality theorem applied to the queried position 2
    and the example table. -/
theorem claim_C3_mutation_totality_w :
    mutVerdict exTable1 2 = notInRangeMsg 2 ↔
      (2 : Int) ∉ exTable1.map (fun r => r.uniprot_pos) :=
  (claim_C3_mutation_totality [2] exTable1).2.2.2 2 (by decide)

/- ------------------------------------------------------------------ -/
/- Claim C8                                                           -/
/- ------------------------------------------------------------------ -/

theorem numAlignLoop_eq (aligned : List Char) (positions : List Int)
    (h : (aligned.filter (fun c => c ≠ '-')).length = positions.length) :
    numAlignLoop positions aligned =
      List.replicate (aligned.takeWhile (fun c => c = '-')).length 0 ++ positions := by
  induction aligned with
  | nil =>
    simp only [List.filter_nil, List.length_nil] at h
    rw [show positions = [] from List.length_eq_zero.mp h.symm]
    rfl
  | cons c rest ih =>
    by_cases hc : c = '-'
    · subst hc
      simp only [numAlignLoop, if_pos rfl, List.takeWhile_cons, List.filter_cons] at *
      simp only [decide_not, decide_True, Bool.not_true, Bool.false_eq_true, if_false,
        if_true] at *
      rw [ih (by simpa using h)]
      simp [List.replicate_succ]
    · simp only [numAlignLoop, if_neg hc, List.takeWhile_cons]
      simp [hc]

theorem numAlign_length_le (aligned : List Char) (positions : List Int)
    (h : (aligned.filter (fun c => c ≠ '-')).length = positions.length) :
    (aligned.takeWhile (fun c => c = '-')).length + positions.length ≤ aligned.length := by
  have hsplit := List.takeWhile_append_dropWhile (fun c => decide (c = '-')) aligned
  have hfil : (aligned.takeWhile (fun c => c = '-')).filter (fun c => c ≠ '-') = [] := by
    rw [List.filter_eq_nil_iff]
    intro a ha
    have := List.mem_takeWhile_imp ha
    simp at this ⊢
    exact this
  have hlen : aligned.length =
      (aligned.takeWhile (fun c => c = '-')).length +
        (aligned.dropWhile (fun c => c = '-')).length := by
    conv_lhs => rw [← hsplit]
    rw [List.length_append]
  have hfl : (aligned.filter (fun c => c ≠ '-')).length ≤
      (aligned.dropWhile (fun c => c = '-')).length := by
    conv_lhs => rw [← hsplit]
    rw [List.filter_append, hfil, List.nil_append]
    exact List.length_filter_le _ _
  omega

/-- Claim C8: numerical_alignment, for an aligned sequence whose non-pad
    characters are exactly as many as the original positions, produces one
    integer per alignment column: every leading pad column maps to 0, from the
    first non-pad column onward the columns carry the original position list in
    order, and all remaining trailing columns map to 0. -/
theorem claim_C8_position_mapper (aligned : List Char) (positions : List Int)
    (h : (aligned.filter (fun c => c ≠ '-')).length = positions.length) :
    numerical_alignment aligned positions =
      List.replicate (aligned.takeWhile (fun c => c = '-')).length 0 ++ positions ++
        List.replicate
          (aligned.length - (aligned.takeWhile (fun c => c = '-')).length -
            positions.length) 0 ∧
    (numerical_alignment aligned positions).length = aligned.length := by
  have hle := numAlign_length_le aligned positions h
  have hcore := numAlignLoop_eq aligned positions h
  have hcl : (numAlignLoop positions aligned).length =
      (aligned.takeWhile (fun c => c = '-')).length + positions.length := by
    rw [hcore, List.length_append, List.length_replicate]
  have heq : numerical_alignment aligned positions =
      List.replicate (aligned.takeWhile (fun c => c = '-')).length 0 ++ positions ++
        List.replicate
          (aligned.length - (aligned.takeWhile (fun c => c = '-')).length -
            positions.length) 0 := by
    rw [numerical_alignment]
    by_cases hgt : aligned.length > (numAlignLoop positions aligned).length
    · rw [if_pos hgt, hcore]
      simp [List.length_append, Nat.sub_sub]
    · rw [if_neg hgt, hcore]
      rw [hcl] at hgt
      rw [show aligned.length - (aligned.takeWhile (fun c => c = '-')).length -
            positions.length = 0 by omega]
      simp
  refine ⟨heq, ?_⟩
  rw [heq]
  simp only [List.length_append, List.length_replicate]
  omega

/-- Claim C8, witness: the mapper evaluated on the aligned sequence -A-B with
    original positions [3, 4]. -/
theorem claim_C8_position_mapper_w :
    numerical_alignment ['-','A','-','B'] [3,4] =
      List.replicate (['-','A','-','B'].takeWhile (fun c => c = '-')).length 0 ++
        [3,4] ++
        List.replicate
          (['-','A','-','B'].length -
            (['-','A','-','B'].takeWhile (fun c => c = '-')).length - [3,4].length) 0 ∧
    (numerical_alignment ['-','A','-','B'] [3,4]).length = ['-','A','-','B'].length :=
  claim_C8_position_mapper ['-','A','-','B'] [3,4] (by decide)

/- ------------------------------------------------------------------ -/
/- Claim C9                                                           -/
/- ------------------------------------------------------------------ -/

theorem range_filter_pos (n : Nat) (p : Int) :
    (List.range n).filter (fun (i : Nat) => ((i : Int) + 1 = p)) =
      if 1 ≤ p ∧ p ≤ (n : Int) then [(p - 1).toNat] else [] := by
  induction n with
  | zero =>
    rw [List.range_zero, List.filter_nil, if_neg (by push_cast; omega)]
  | succ n ih =>
    rw [List.range_succ, List.filter_append, ih, List.filter_singleton]
    by_cases hp : (n : Int) + 1 = p
    · have hc : decide ((n : Int) + 1 = p) = true := by simp [hp]
      rw [hc, if_neg (by omega), if_pos ⟨by omega, by push_cast; omega⟩]
      simp only [cond_true, List.nil_append]
      rw [show (p - 1).toNat = n from by omega]
    · have hc : decide ((n : Int) + 1 = p) = false := by simp [hp]
      rw [hc]
      simp only [cond_false, List.append_nil]
      by_cases h2 : 1 ≤ p ∧ p ≤ (n : Int)
      · rw [if_pos h2, if_pos ⟨h2.1, by push_cast; omega⟩]
      · rw [if_neg h2, if_neg (by push_cast; omega)]

theorem afDf_filter_eq (atoms : List (Char × Int)) (p : Int) :
    (afDf atoms).filter (fun r => r.position = p) =
      ((List.range atoms.length).filter (fun (i : Nat) => ((i : Int) + 1 = p))).map
        (fun (i : Nat) =>
          { position := (i : Int) + 1
            sequence := (atoms.getD i (' ', 0)).1
            pddlt := (atoms.getD i (' ', 0)).2
            category :=
              if 70 < (atoms.getD i (' ', 0)).2 then "high" else "low" : AFRow }) := by
  rw [afDf, List.filter_map]
  rfl

/-- Claim C9: in the predicted-model branch taken when at least one residue is
    high-confidence, the mutation column is the comma-joined per-query verdicts,
    and each queried position receives NA when the query itself is NA, the
    echoed residue-position-residue string when the score at that position
    strictly exceeds 70, and the not-in-range string otherwise (including
    positions outside 1..n). -/
theorem claim_C9_confidence_verdicts (atoms : List (Char × Int))
    (queries : List AFQuery)
    (h : 0 < ((afDf atoms).filter (fun r => r.category = ("high" : String))).length) :
    align_alphafold_AA atoms queries =
      String.intercalate (",") (queries.map (afVerdict atoms)) ∧
    ∀ q ∈ queries,
      (q = AFQuery.na → afVerdict atoms q = "NA") ∧
      (∀ p : Int, q = AFQuery.val p →
        ((∃ i : Nat, i < atoms.length ∧ p = (i : Int) + 1 ∧
            70 < (atoms.getD i (' ', 0)).2) →
          afVerdict atoms q =
            resolvedMsg (atoms.getD (p - 1).toNat (' ', 0)).1 p
              (atoms.getD (p - 1).toNat (' ', 0)).1) ∧
        ((¬ ∃ i : Nat, i < atoms.length ∧ p = (i : Int) + 1 ∧
            70 < (atoms.getD i (' ', 0)).2) →
          afVerdict atoms q = "Mutation not in range")) := by
  constructor
  · rw [align_alphafold_AA, if_pos h]
  · intro q _
    constructor
    · intro hq; subst hq; rfl
    · intro p hq
      subst hq
      constructor
      · rintro ⟨i, hi, hpi, hsc⟩
        have hcond : 1 ≤ p ∧ p ≤ (atoms.length : Int) := by
          constructor <;> omega
        have hfil : (afDf atoms).filter (fun r => r.position = p) =
            [{ position := (i : Int) + 1
               sequence := (atoms.getD i (' ', 0)).1
               pddlt := (atoms.getD i (' ', 0)).2
               category :=
                 if 70 < (atoms.getD i (' ', 0)).2 then "high" else "low" : AFRow }] := by
          rw [afDf_filter_eq, range_filter_pos, if_pos hcond,
            show (p - 1).toNat = i from by omega, List.map_cons, List.map_nil]
        have hi2 : (p - 1).toNat = i := by omega
        show (if ((afDf atoms).filter (fun r => r.position = p)).map
            (fun r => r.category) = [("high" : String)] then _ else _) = _
        rw [hfil]
        rw [if_pos (by rw [List.map_cons, List.map_nil, if_pos hsc])]
        simp only [List.map_cons, List.map_nil, List.headD_cons, hi2]
      · intro hno
        show (if ((afDf atoms).filter (fun r => r.position = p)).map
            (fun r => r.category) = [("high" : String)] then _ else _) = _
        by_cases hcond : 1 ≤ p ∧ p ≤ (atoms.length : Int)
        · have hi : (p - 1).toNat < atoms.length := by omega
          have hpi : p = ((p - 1).toNat : Int) + 1 := by omega
          have hsc : ¬70 < (atoms.getD (p - 1).toNat (' ', 0)).2 := by
            intro hsc
            exact hno ⟨(p - 1).toNat, hi, hpi, hsc⟩
          rw [afDf_filter_eq, range_filter_pos, if_pos hcond, List.map_cons,
            List.map_nil, List.map_cons, List.map_nil]
          rw [if_neg (by rw [if_neg hsc]; simp)]
        · rw [afDf_filter_eq, range_filter_pos, if_neg hcond, List.map_nil,
            List.map_nil]
          rw [if_neg (by decide)]

/-- Claim C9, witness: the theorem applied to a two-residue model with scores 90
    and 40 and queries NA, 1, 2 and 3. -/
theorem claim_C9_confidence_verdicts_w :
    align_alphafold_AA [('M', 90), ('K', 40)]
        [AFQuery.na, AFQuery.val 1, AFQuery.val 2, AFQuery.val 3] =
      String.intercalate (",")
        (([AFQuery.na, AFQuery.val 1, AFQuery.val 2, AFQuery.val 3]).map
          (afVerdict [('M', 90), ('K', 40)])) ∧
    afVerdict [('M', 90), ('K', 40)] AFQuery.na = "NA" :=
  ⟨(claim_C9_confidence_verdicts [('M', 90), ('K', 40)]
      [AFQuery.na, AFQuery.val 1, AFQuery.val 2, AFQuery.val 3] (by decide)).1,
   ((claim_C9_confidence_verdicts [('M', 90), ('K', 40)]
      [AFQuery.na, AFQuery.val 1, AFQuery.val 2, AFQuery.val 3] (by decide)).2
        AFQuery.na (by decide)).1 rfl⟩

/- ------------------------------------------------------------------ -/
/- Claim C6                                                           -/
/- ------------------------------------------------------------------ -/

theorem mem_sortedDedup (l : List Int) (x : Int) : x ∈ sortedDedup l ↔ x ∈ l := by
  rw [sortedDedup, (List.perm_insertionSort _ _).mem_iff, List.mem_dedup]

theorem sortedDedup_chain (l : List Int) : List.Chain' (· < ·) (sortedDedup l) := by
  have hs : List.Pairwise (· ≤ ·) (sortedDedup l) := List.sorted_insertionSort _ _
  have hn : (sortedDedup l).Nodup :=
    ((List.perm_insertionSort _ _).nodup_iff).mpr (List.nodup_dedup l)
  exact ((hs.and hn).imp (fun h => lt_of_le_of_ne h.1 h.2)).chain'

theorem runsAux_cover (t : List Int) :
    ∀ start prev : Int, start ≤ prev → List.Chain' (· < ·) (prev :: t) →
      ∀ x : Int, (∃ pr ∈ runsAux start prev t, pr.1 ≤ x ∧ x ≤ pr.2) ↔
        ((start ≤ x ∧ x ≤ prev) ∨ x ∈ t) := by
  induction t with
  | nil =>
    intro start prev _ _ x
    rw [runsAux, List.exists_mem_cons_iff]
    simp
  | cons v t ih =>
    intro start prev hsp hch x
    have hpv : prev < v := (List.chain'_cons.mp hch).1
    have hch2 : List.Chain' (· < ·) (v :: t) := (List.chain'_cons.mp hch).2
    rw [runsAux]
    by_cases hv : v = prev + 1
    · rw [if_pos hv, ih start v (by omega) hch2 x, List.mem_cons]
      constructor
      · rintro (⟨h1, h2⟩ | h1)
        · by_cases hx : x ≤ prev
          · exact Or.inl ⟨h1, hx⟩
          · exact Or.inr (Or.inl (by omega))
        · exact Or.inr (Or.inr h1)
      · rintro (⟨h1, h2⟩ | h1 | h1)
        · exact Or.inl ⟨h1, by omega⟩
        · exact Or.inl (by omega)
        · exact Or.inr h1
    · rw [if_neg hv, List.exists_mem_cons_iff, ih v v le_rfl hch2 x, List.mem_cons]
      constructor
      · rintro (⟨h1, h2⟩ | ⟨h1, h2⟩ | h1)
        · exact Or.inl ⟨h1, h2⟩
        · exact Or.inr (Or.inl (by omega))
        · exact Or.inr (Or.inr h1)
      · rintro (⟨h1, h2⟩ | h1 | h1)
        · exact Or.inl ⟨h1, h2⟩
        · exact Or.inr (Or.inl (by omega))
        · exact Or.inr (Or.inr h1)

theorem runsAux_head (t : List Int) :
    ∀ start prev : Int, ∃ e rest, runsAux start prev t = (start, e) :: rest := by
  induction t with
  | nil => intro start prev; exact ⟨prev, [], rfl⟩
  | cons v t ih =>
    intro start prev
    rw [runsAux]
    by_cases hv : v = prev + 1
    · rw [if_pos hv]; exact ih start v
    · rw [if_neg hv]; exact ⟨prev, runsAux v v t, rfl⟩

theorem runsAux_le (t : List Int) :
    ∀ start prev : Int, start ≤ prev → List.Chain' (· < ·) (prev :: t) →
      ∀ pr ∈ runsAux start prev t, pr.1 ≤ pr.2 := by
  induction t with
  | nil =>
    intro start prev hsp _ pr hpr
    rw [runsAux, List.mem_singleton] at hpr
    rw [hpr]
    exact hsp
  | cons v t ih =>
    intro start prev hsp hch pr hpr
    have hpv : prev < v := (List.chain'_cons.mp hch).1
    have hch2 : List.Chain' (· < ·) (v :: t) := (List.chain'_cons.mp hch).2
    rw [runsAux] at hpr
    by_cases hv : v = prev + 1
    · rw [if_pos hv] at hpr
      exact ih start v (by omega) hch2 pr hpr
    · rw [if_neg hv, List.mem_cons] at hpr
      rcases hpr with h1 | h1
      · rw [h1]; exact hsp
      · exact ih v v le_rfl hch2 pr h1

theorem runsAux_chain (t : List Int) :
    ∀ start prev : Int, List.Chain' (· < ·) (prev :: t) →
      List.Chain' (fun a b : Int × Int => a.2 + 1 < b.1) (runsAux start prev t) := by
  induction t with
  | nil => intro start prev _; simp [runsAux]
  | cons v t ih =>
    intro start prev hch
    have hpv : prev < v := (List.chain'_cons.mp hch).1
    have hch2 : List.Chain' (· < ·) (v :: t) := (List.chain'_cons.mp hch).2
    rw [runsAux]
    by_cases hv : v = prev + 1
    · rw [if_pos hv]; exact ih start v hch2
    · rw [if_neg hv]
      obtain ⟨e, rest, hr⟩ := runsAux_head t v v
      rw [hr, List.chain'_cons]
      refine ⟨by show prev + 1 < v; omega, ?_⟩
      rw [← hr]
      exact ih v v hch2

/-- Claim C6: for every table, the union of the coverage ranges computed by
    get_coverage through to_ranges equals exactly the set of distinct reference
    positions present in the table, the ranges are well-formed (start at most
    end), and consecutive ranges are separated by at least one missing integer,
    which makes them pairwise disjoint, maximal and ascending. -/
theorem claim_C6_coverage_closure (df : List Row) :
    (∀ x : Int, (∃ pr ∈ get_coverage_ranges df, pr.1 ≤ x ∧ x ≤ pr.2) ↔
      x ∈ df.map (fun r => r.uniprot_pos)) ∧
    List.Chain' (fun a b : Int × Int => a.2 + 1 < b.1) (get_coverage_ranges df) ∧
    ∀ pr ∈ get_coverage_ranges df, pr.1 ≤ pr.2 := by
  have hmem := mem_sortedDedup (df.map (fun r => r.uniprot_pos))
  have hch := sortedDedup_chain (df.map (fun r => r.uniprot_pos))
  rw [get_coverage_ranges]
  unfold to_ranges
  cases hsd : sortedDedup (df.map (fun r => r.uniprot_pos)) with
  | nil =>
    rw [hsd] at hmem
    refine ⟨?_, by simp, by simp⟩
    intro x
    rw [← hmem x]
    simp
  | cons v t =>
    rw [hsd] at hmem hch
    refine ⟨?_, runsAux_chain t v v hch, runsAux_le t v v le_rfl hch⟩
    intro x
    rw [runsAux_cover t v v le_rfl hch x, ← hmem x, List.mem_cons]
    constructor
    · rintro (⟨h1, h2⟩ | h1)
      · exact Or.inl (by omega)
      · exact Or.inr h1
    · rintro (h1 | h1)
      · exact Or.inl (by omega)
      · exact Or.inr h1

/-- Claim C6, witness: the closure theorem applied to the example table, with
    the range (1,5) and the position 3. -/
theorem claim_C6_coverage_closure_w :
    (1 : Int) ≤ 5 ∧
    ((∃ pr ∈ get_coverage_ranges exTable1, pr.1 ≤ (3 : Int) ∧ (3 : Int) ≤ pr.2) ↔
      (3 : Int) ∈ exTable1.map (fun r => r.uniprot_pos)) :=
  ⟨(claim_C6_coverage_closure exTable1).2.2 (1, 5) (by decide),
   (claim_C6_coverage_closure exTable1).1 3⟩

/- ------------------------------------------------------------------ -/
/- Claim C7                                                           -/
/- ------------------------------------------------------------------ -/

theorem mem_bigRunRemoval (start stop : Int) (runs : List (List Int)) (p : Int) :
    p ∈ bigRunRemoval start stop runs ↔
      ∃ r ∈ runs, 2 < r.length ∧ (start ∈ r ∨ stop ∈ r) ∧ p ∈ r := by
  rw [bigRunRemoval]
  suffices h : ∀ acc : List Int,
      p ∈ runs.foldl (fun acc r =>
        acc ++ (if 2 < r.length ∧ start ∈ r then r else [])
            ++ (if 2 < r.length ∧ stop ∈ r then r else [])) acc ↔
      p ∈ acc ∨ ∃ r ∈ runs, 2 < r.length ∧ (start ∈ r ∨ stop ∈ r) ∧ p ∈ r by
    rw [h []]
    simp
  induction runs with
  | nil => intro acc; simp
  | cons r rest ih =>
    intro acc
    rw [List.foldl_cons, ih, List.exists_mem_cons_iff]
    have hstep : p ∈ ((acc ++ (if 2 < r.length ∧ start ∈ r then r else [])) ++
        (if 2 < r.length ∧ stop ∈ r then r else [])) ↔
        p ∈ acc ∨ (2 < r.length ∧ (start ∈ r ∨ stop ∈ r) ∧ p ∈ r) := by
      rw [List.mem_append, List.mem_append]
      constructor
      · rintro ((h | h) | h)
        · exact Or.inl h
        · by_cases h1 : 2 < r.length ∧ start ∈ r
          · rw [if_pos h1] at h
            exact Or.inr ⟨h1.1, Or.inl h1.2, h⟩
          · rw [if_neg h1] at h
            exact absurd h (List.not_mem_nil p)
        · by_cases h2 : 2 < r.length ∧ stop ∈ r
          · rw [if_pos h2] at h
            exact Or.inr ⟨h2.1, Or.inr h2.2, h⟩
          · rw [if_neg h2] at h
            exact absurd h (List.not_mem_nil p)
      · rintro (h | ⟨hlen, hterm | hterm, hpr⟩)
        · exact Or.inl (Or.inl h)
        · exact Or.inl (Or.inr (by rw [if_pos ⟨hlen, hterm⟩]; exact hpr))
        · exact Or.inr (by rw [if_pos ⟨hlen, hterm⟩]; exact hpr)
    rw [hstep]
    exact or_assoc

theorem mem_bigRunWarnings (start stop : Int) (runs : List (List Int)) (w : String) :
    w ∈ bigRunWarnings start stop runs ↔
      ∃ r ∈ runs, 2 < r.length ∧
        ((start ∈ r ∧ w = nWarn r.length) ∨ (stop ∈ r ∧ w = cWarn r.length)) := by
  rw [bigRunWarnings]
  suffices h : ∀ acc : List String,
      w ∈ runs.foldl (fun acc r =>
        acc ++ (if 2 < r.length ∧ start ∈ r then [nWarn r.length] else [])
            ++ (if 2 < r.length ∧ stop ∈ r then [cWarn r.length] else [])) acc ↔
      w ∈ acc ∨ ∃ r ∈ runs, 2 < r.length ∧
        ((start ∈ r ∧ w = nWarn r.length) ∨ (stop ∈ r ∧ w = cWarn r.length)) by
    rw [h []]
    simp
  induction runs with
  | nil => intro acc; simp
  | cons r rest ih =>
    intro acc
    rw [List.foldl_cons, ih, List.exists_mem_cons_iff]
    have hstep : w ∈ ((acc ++ (if 2 < r.length ∧ start ∈ r then [nWarn r.length] else [])) ++
        (if 2 < r.length ∧ stop ∈ r then [cWarn r.length] else [])) ↔
        w ∈ acc ∨ (2 < r.length ∧
          ((start ∈ r ∧ w = nWarn r.length) ∨ (stop ∈ r ∧ w = cWarn r.length))) := by
      rw [List.mem_append, List.mem_append]
      constructor
      · rintro ((h | h) | h)
        · exact Or.inl h
        · by_cases h1 : 2 < r.length ∧ start ∈ r
          · rw [if_pos h1, List.mem_singleton] at h
            exact Or.inr ⟨h1.1, Or.inl ⟨h1.2, h⟩⟩
          · rw [if_neg h1] at h
            exact absurd h (List.not_mem_nil w)
        · by_cases h2 : 2 < r.length ∧ stop ∈ r
          · rw [if_pos h2, List.mem_singleton] at h
            exact Or.inr ⟨h2.1, Or.inr ⟨h2.2, h⟩⟩
          · rw [if_neg h2] at h
            exact absurd h (List.not_mem_nil w)
      · rintro (h | ⟨hlen, ⟨hterm, hw⟩ | ⟨hterm, hw⟩⟩)
        · exact Or.inl (Or.inl h)
        · exact Or.inl (Or.inr (by rw [if_pos ⟨hlen, hterm⟩, List.mem_singleton]; exact hw))
        · exact Or.inr (by rw [if_pos ⟨hlen, hterm⟩, List.mem_singleton]; exact hw)
    rw [hstep]
    exact or_assoc

theorem mem_trimmed_pos (df : List Row) (p : Int) :
    p ∈ (trimmedTable df).map (fun r => r.uniprot_pos) ↔
      p ∈ df.map (fun r => r.uniprot_pos) ∧ p ∉ removal_values df := by
  rw [trimmedTable]
  simp only [List.mem_map, List.mem_filter, decide_not, Bool.not_eq_eq_eq_not,
    Bool.not_true, decide_eq_false_iff_not]
  constructor
  · rintro ⟨r, ⟨hr, hrem⟩, hp⟩
    exact ⟨⟨r, hr, hp⟩, hp ▸ hrem⟩
  · rintro ⟨⟨r, hr, hp⟩, hrem⟩
    exact ⟨r, ⟨hr, hp ▸ hrem⟩, hp⟩

/-- Claim C7, counterexample: a table beginning with the zero-sentinel row whose
    residues differ.  The hotspot run [0] has length 1 and touches the first
    table position (seq_start = 0), yet the step-0 branch removes it: position 0
    is in the table but absent from the trimmed table.  So a hotspot run of
    length at most 2 touching a terminus can be removed, and a removed run is
    not always a consecutive run of length greater than 2. -/
theorem claim_C7_cex :
    [(0 : Int)] ∈ splitRuns 1 (hotspots exTable0) ∧
    ([(0 : Int)] : List Int).length ≤ 2 ∧
    seqStart exTable0 ∈ [(0 : Int)] ∧
    (0 : Int) ∈ exTable0.map (fun r => r.uniprot_pos) ∧
    (0 : Int) ∉ (trimmedTable exTable0).map (fun r => r.uniprot_pos) := by
  exact ⟨by decide, by decide, by decide, by decide, by decide⟩

/-- Claim C7 (amended): for every table, a positive position is removed by the
    artifact trimming exactly when it lies in a consecutive hotspot run of
    length greater than 2 containing the first or last table position, and each
    such removed run records a warning naming its terminus and length; hotspot
    runs of length at most 2 at the termini therefore survive, except for the
    zero-sentinel rows, which the separate step-0 branch removes whenever the
    hotspot list starts with value 0, regardless of run length. -/
theorem claim_C7_terminal_trim (df : List Row) :
    (∀ p : Int, p ∈ df.map (fun r => r.uniprot_pos) → 0 < p →
      (p ∉ (trimmedTable df).map (fun r => r.uniprot_pos) ↔
        ∃ r ∈ splitRuns 1 (hotspots df), 2 < r.length ∧
          (seqStart df ∈ r ∨ seqEnd df ∈ r) ∧ p ∈ r)) ∧
    (∀ r ∈ splitRuns 1 (hotspots df), 2 < r.length →
      (seqStart df ∈ r → nWarn r.length ∈ discWarnings df) ∧
      (seqEnd df ∈ r → cWarn r.length ∈ discWarnings df)) := by
  constructor
  · intro p hp hpos
    rw [mem_trimmed_pos]
    constructor
    · intro hno
      have hrem : p ∈ removal_values df := by
        by_contra hcon
        exact hno ⟨hp, hcon⟩
      rw [removal_values, List.mem_append] at hrem
      rcases hrem with h1 | h1
      · exfalso
        rw [zeroRemoval] at h1
        by_cases hz : 0 ∈ (splitRuns 0 (hotspots df)).headD []
        · rw [if_pos hz, List.mem_singleton] at h1
          omega
        · rw [if_neg hz] at h1
          exact List.not_mem_nil p h1
      · exact (mem_bigRunRemoval _ _ _ p).mp h1
    · rintro ⟨r, hr, hlen, hterm, hpr⟩ ⟨_, hrem⟩
      exact hrem (by
        rw [removal_values, List.mem_append]
        exact Or.inr ((mem_bigRunRemoval _ _ _ p).mpr ⟨r, hr, hlen, hterm, hpr⟩))
  · intro r hr hlen
    constructor
    · intro hst
      rw [discWarnings, List.mem_append]
      exact Or.inr ((mem_bigRunWarnings _ _ _ _).mpr ⟨r, hr, hlen, Or.inl ⟨hst, rfl⟩⟩)
    · intro hen
      rw [discWarnings, List.mem_append]
      exact Or.inr ((mem_bigRunWarnings _ _ _ _).mpr ⟨r, hr, hlen, Or.inr ⟨hen, rfl⟩⟩)

/-- Claim C7, witness: the trimming characterization applied to the example
    table, whose hotspot run [1,2,3] has length 3 and contains the first
    position. -/
theorem claim_C7_terminal_trim_w :
    ((1 : Int) ∉ (trimmedTable exTable1).map (fun r => r.uniprot_pos) ↔
      ∃ r ∈ splitRuns 1 (hotspots exTable1), 2 < r.length ∧
        (seqStart exTable1 ∈ r ∨ seqEnd exTable1 ∈ r) ∧ (1 : Int) ∈ r) ∧
    nWarn ([(1 : Int), 2, 3] : List Int).length ∈ discWarnings exTable1 :=
  ⟨(claim_C7_terminal_trim exTable1).1 1 (by decide) (by decide),
   ((claim_C7_terminal_trim exTable1).2 [1, 2, 3] (by decide) (by decide)).1 (by decide)⟩
